import Mathlib

/-!
Verification of the sentry-bridge market-data engine (Go) against its
natural-language specification, via a shallow embedding in Lean 4.

Conventions of the embedding:
* `time.Time` values are modelled as integers (nanoseconds); `time.Duration`
  likewise.  The Go zero `time.Time` (tested with `IsZero`) is modelled as
  `Option ℤ` being `none` where the code branches on it.
* `float64` prices/sizes in the rolling-state code are modelled as `ℚ`
  (that code performs only comparisons and field arithmetic).  The
  volatility code uses `log`/`sqrt` and is modelled over `ℝ`, with
  `Option ℝ` whose `none` stands for the IEEE `NaN` results the Go code
  produces explicitly.
* Go maps keyed by symbol are modelled as functions `String → _` updated
  with `Function.update` (a missing `map[string]float64` entry reads as the
  zero value, so those maps are total functions).
-/

namespace SentryBridge

namespace Brain

/-- Nanoseconds, the unit of Go `time.Duration`. -/
def nanosecond : ℤ := 1

/-- One second in nanoseconds (`time.Second`). -/
def second : ℤ := 1000000000 * nanosecond

/-- One minute in nanoseconds (`time.Minute`). -/
def minute : ℤ := 60 * second

/-- `lookback = 6 * time.Minute` from `brain` package: how long price/volume
points are kept. -/
def lookback : ℤ := 6 * minute

/-- `pricePoint`: a single (time, price) sample (`pipe.go`). -/
structure PricePoint where
  t : ℤ
  p : ℚ
deriving DecidableEq

/-- `volumePoint`: a single (time, size) sample (`pipe.go`). -/
structure VolumePoint where
  t : ℤ
  v : ℤ
deriving DecidableEq

/-- `State`: per-symbol price/volume history and volatility.  The mutex is
immaterial in the sequential embedding.  The `volatility` map reads as `0`
for missing keys, matching a Go `map[string]float64` lookup. -/
structure State where
  priceHistory : String → List PricePoint
  volumeHistory : String → List VolumePoint
  volatility : String → ℚ

/-- `NewState()`: empty histories. -/
def NewState : State :=
  { priceHistory := fun _ => []
    volumeHistory := fun _ => []
    volatility := fun _ => 0 }

/-- `State.RecordTrade`: append a price point (always) and a volume point
(when `size > 0`), trimming each history to the look-back window.  The Go
`t.IsZero()` fallback to `time.Now()` is modelled by the `Option ℤ`
timestamp with `wallNow` as the fallback.  The trimming loop
`for len(h) > 0 && h[0].t.Before(cut) { h = h[1:] }` is `dropWhile`. -/
def RecordTrade (s : State) (symbol : String) (price : ℚ) (size : ℤ)
    (t : Option ℤ) (wallNow : ℤ) : State :=
  let now := t.getD wallNow
  let cut := now - lookback
  let ph := ((s.priceHistory symbol) ++ [PricePoint.mk now price]).dropWhile
    (fun q => decide (q.t < cut))
  let s' := { s with priceHistory := Function.update s.priceHistory symbol ph }
  if 0 < size then
    let vh := ((s.volumeHistory symbol) ++ [VolumePoint.mk now size]).dropWhile
      (fun q => decide (q.t < cut))
    { s' with volumeHistory := Function.update s.volumeHistory symbol vh }
  else
    s'

/-- `State.volumeSince`: sum of sizes of volume points strictly newer than
`now - d` (`p.t.After(cut)`). -/
def volumeSince (s : State) (wallNow : ℤ) (symbol : String) (d : ℤ) : ℤ :=
  let cut := wallNow - d
  ((s.volumeHistory symbol).filter (fun q => decide (cut < q.t))).foldl
    (fun sum q => sum + q.v) 0

/-- `State.returnSince`: scan the price history from the newest end for the
first point with `t ≤ cut` (`Before || Equal`), then return
`(current - past) / past`, with `0` for empty history, `current ≤ 0`, or
`past ≤ 0` (`past` stays `0` when the scan finds nothing). -/
def returnSince (s : State) (wallNow : ℤ) (symbol : String) (current : ℚ)
    (d : ℤ) : ℚ :=
  let cut := wallNow - d
  let ph := s.priceHistory symbol
  if ph = [] ∨ current ≤ 0 then 0
  else
    let past : ℚ := ((ph.reverse.find? (fun q => decide (q.t ≤ cut))).map
      (fun q => q.p)).getD 0
    if past ≤ 0 then 0 else (current - past) / past

/-- `Session` (pipe.go), applied to the clock time already converted to the
exchange's local (Eastern) civil time: `h`/`m` are the local hour and
minute, `minutes = h*60 + m`, with thresholds 570 (= 9:30) and 960
(= 16:00).  The `time.LoadLocation` conversion itself is outside the
embedding. -/
def Session (h m : ℕ) : String :=
  let minutes := h * 60 + m
  if minutes < 570 then "pre_open"
  else if 960 ≤ minutes then "post_close"
  else "regular"

end Brain

end SentryBridge

namespace SentryBridge

namespace Brain

/-- The price of the most recent qualifying point, stated the way the spec
words it: among the recorded points with `t ≤ cut`, take the last recorded
one (for a history sorted by timestamp this is the one with the greatest
timestamp); return `(current - past)/past`, or `0` when no qualifying
point exists, `current ≤ 0`, or that past price is `≤ 0`. -/
def returnSinceSpec (ph : List PricePoint) (current : ℚ) (cut : ℤ) : ℚ :=
  match (ph.filter (fun q => decide (q.t ≤ cut))).getLast? with
  | none => 0
  | some q => if current ≤ 0 ∨ q.p ≤ 0 then 0 else (current - q.p) / q.p

/-- Scanning a list from the end for the first match is the last match in
list order. -/
theorem find?_reverse_eq_getLast?_filter {α : Type} (p : α → Bool) :
    ∀ l : List α, l.reverse.find? p = (l.filter p).getLast? := by
  intro l
  induction l using List.reverseRecOn with
  | nil => rfl
  | append_singleton xs x ih =>
    cases hx : p x with
    | true =>
      rw [List.reverse_append, List.reverse_singleton, List.singleton_append,
        List.find?_cons_of_pos _ hx, List.filter_append]
      have hfx : List.filter p [x] = [x] := by simp [hx]
      rw [hfx, List.getLast?_concat]
    | false =>
      rw [List.reverse_append, List.reverse_singleton, List.singleton_append,
        List.find?_cons_of_neg _ (by simp [hx]), List.filter_append]
      have hfx : List.filter p [x] = [] := by simp [hx]
      rw [hfx, List.append_nil]
      exact ih

/-- In a list whose timestamps are pairwise nondecreasing, every member's
timestamp is at most the last element's timestamp. -/
theorem le_getLast_t_of_pairwise :
    ∀ (l : List PricePoint), l.Pairwise (fun a b => a.t ≤ b.t) →
      ∀ x ∈ l, ∀ y, l.getLast? = some y → x.t ≤ y.t := by
  intro l
  induction l with
  | nil => intro _ x hx; exact absurd hx (List.not_mem_nil x)
  | cons a tl ih =>
    intro hp x hx y hy
    rcases List.pairwise_cons.mp hp with ⟨ha, htl⟩
    cases tl with
    | nil =>
      simp only [List.getLast?_singleton, Option.some.injEq] at hy
      rcases List.mem_singleton.mp hx with rfl
      exact hy ▸ le_refl _
    | cons b tb =>
      rw [List.getLast?_cons_cons] at hy
      rcases List.mem_cons.mp hx with rfl | hx'
      · rcases List.mem_getLast?_eq_getLast ((Option.mem_def).mpr hy) with
          ⟨hne, hyl⟩
        exact ha y (hyl ▸ List.getLast_mem hne)
      · exact ih htl x hx' y hy

/-- Unfolding lemma for `returnSince`. -/
theorem returnSince_def (s : State) (wallNow : ℤ) (symbol : String)
    (current : ℚ) (d : ℤ) :
    returnSince s wallNow symbol current d
      = if s.priceHistory symbol = [] ∨ current ≤ 0 then 0
        else
          let past : ℚ := (((s.priceHistory symbol).reverse.find?
            (fun q => decide (q.t ≤ wallNow - d))).map (fun q => q.p)).getD 0
          if past ≤ 0 then 0 else (current - past) / past := rfl

/-- C1: `returnSince(symbol, current, d)` returns `(current - past)/past`
where `past` is the price of the most recent recorded price point with
timestamp at or before `now - d`, and returns exactly `0` when no point
qualifies, when `current ≤ 0`, or when that past price is `≤ 0`.  Stated
for a price history with nondecreasing timestamps (as produced by a feed
of chronological trades), under which the point the code picks (the last
recorded qualifying point) is also the one with the greatest timestamp,
as the second conjunct states. -/
theorem returnSince_matches_spec (s : State) (wallNow : ℤ) (symbol : String)
    (current : ℚ) (d : ℤ)
    (hsorted : (s.priceHistory symbol).Pairwise (fun a b => a.t ≤ b.t)) :
    returnSince s wallNow symbol current d
      = returnSinceSpec (s.priceHistory symbol) current (wallNow - d)
    ∧ (∀ q, ((s.priceHistory symbol).filter
          (fun r => decide (r.t ≤ wallNow - d))).getLast? = some q →
        ∀ r ∈ s.priceHistory symbol, r.t ≤ wallNow - d → r.t ≤ q.t) := by
  constructor
  · rw [returnSince_def, returnSinceSpec]
    by_cases hemp : s.priceHistory symbol = []
    · simp [hemp]
    · by_cases hcur : current ≤ 0
      · rw [if_pos (Or.inr hcur)]
        cases hq : ((s.priceHistory symbol).filter
            (fun q => decide (q.t ≤ wallNow - d))).getLast? with
        | none => rfl
        | some q => simp [hcur]
      · rw [if_neg (by simp [hemp, hcur]), find?_reverse_eq_getLast?_filter]
        cases hq : ((s.priceHistory symbol).filter
            (fun q => decide (q.t ≤ wallNow - d))).getLast? with
        | none => simp
        | some q =>
          by_cases hp : q.p ≤ 0
          · simp [hp, hcur]
          · simp [hp, hcur]
  · intro q hq r hr hrt
    have hmem : r ∈ (s.priceHistory symbol).filter
        (fun r => decide (r.t ≤ wallNow - d)) :=
      List.mem_filter.mpr ⟨hr, by simpa using hrt⟩
    exact le_getLast_t_of_pairwise _ (hsorted.filter _) r hmem q hq

/-- A concrete price history for the C1 witness. -/
def c1History : List PricePoint := [PricePoint.mk 0 100, PricePoint.mk minute 101]

/-- A concrete state for the C1 witness: symbol AAPL with two price points. -/
def c1State : State :=
  { NewState with
    priceHistory := Function.update NewState.priceHistory "AAPL" c1History }

/-- Witness for C1 at a concrete sorted history: two points at t = 0 and
t = 1min, current price 102, duration 1min, evaluated at wall time 2min. -/
theorem returnSince_matches_spec_witness :
    (c1State.priceHistory "AAPL").Pairwise (fun a b => a.t ≤ b.t)
    ∧ (returnSince c1State (2 * minute) "AAPL" 102 minute
        = returnSinceSpec (c1State.priceHistory "AAPL") 102 (2 * minute - minute)
      ∧ (∀ q, ((c1State.priceHistory "AAPL").filter
            (fun r => decide (r.t ≤ 2 * minute - minute))).getLast? = some q →
          ∀ r ∈ c1State.priceHistory "AAPL", r.t ≤ 2 * minute - minute →
            r.t ≤ q.t)) :=
  ⟨by decide, returnSince_matches_spec c1State (2 * minute) "AAPL" 102 minute
    (by decide)⟩

/-- Unfolding lemma for `Session`. -/
theorem Session_def (h m : ℕ) :
    Session h m = if h * 60 + m < 570 then "pre_open"
      else if 960 ≤ h * 60 + m then "post_close" else "regular" := rfl

/-- C7: session classification is a pure function of the exchange-local
civil time: before 9:30 maps to pre_open, 9:30 (inclusive) to 16:00
(exclusive) to regular, and at or after 16:00 to post_close; in
particular 09:29, 09:30, 15:59 and 16:00 classify as stated. -/
theorem session_classification :
    (∀ h m : ℕ,
      (Session h m = "pre_open" ↔ h * 60 + m < 570)
      ∧ (Session h m = "regular" ↔ 570 ≤ h * 60 + m ∧ h * 60 + m < 960)
      ∧ (Session h m = "post_close" ↔ 960 ≤ h * 60 + m))
    ∧ Session 9 29 = "pre_open" ∧ Session 9 30 = "regular"
    ∧ Session 15 59 = "regular" ∧ Session 16 0 = "post_close" := by
  refine ⟨fun h m => ?_, by decide, by decide, by decide, by decide⟩
  rw [Session_def]
  split_ifs with h1 h2
  · exact ⟨⟨fun _ => h1, fun _ => rfl⟩,
      ⟨fun hs => absurd hs (by decide), fun hn => absurd hn.1 (by omega)⟩,
      ⟨fun hs => absurd hs (by decide), fun hn => by omega⟩⟩
  · exact ⟨⟨fun hs => absurd hs (by decide), fun hn => by omega⟩,
      ⟨fun hs => absurd hs (by decide), fun hn => absurd hn.2 (by omega)⟩,
      ⟨fun _ => h2, fun _ => rfl⟩⟩
  · exact ⟨⟨fun hs => absurd hs (by decide), fun hn => by omega⟩,
      ⟨fun _ => by omega, fun _ => rfl⟩,
      ⟨fun hs => absurd hs (by decide), fun hn => by omega⟩⟩

end Brain

end SentryBridge
namespace SentryBridge

namespace Brain

/-- One `RecordTrade` call in a recorded sequence of trades. -/
structure TradeEv where
  symbol : String
  price : ℚ
  size : ℤ
  t : ℤ
deriving DecidableEq

/-- Fold a sequence of `RecordTrade` calls (each with its own explicit,
non-zero timestamp) over a state. -/
def applyTrades (s : State) (ts : List TradeEv) : State :=
  ts.foldl (fun st tr => RecordTrade st tr.symbol tr.price tr.size (some tr.t) 0) s

/-- The volume points a sequence of trades contributes: one per trade with
`size > 0`, in call order. -/
def volPointsOf (ts : List TradeEv) : List VolumePoint :=
  (ts.filter (fun tr => decide (0 < tr.size))).map
    (fun tr => VolumePoint.mk tr.t tr.size)

/-- The volume history the spec predicts after a chronological sequence of
trades: all contributed volume points no older than the look-back window
ending at the timestamp of the last positive-size trade. -/
def specVolHistory (ts : List TradeEv) : List VolumePoint :=
  match (volPointsOf ts).getLast? with
  | none => []
  | some lastPt =>
      (volPointsOf ts).filter (fun q => decide (lastPt.t - lookback ≤ q.t))

/-- Rewriting lemma for `specVolHistory` when there is no volume point. -/
theorem specVolHistory_none {ts : List TradeEv}
    (h : (volPointsOf ts).getLast? = none) : specVolHistory ts = [] := by
  unfold specVolHistory
  rw [h]

/-- Rewriting lemma for `specVolHistory` when there is a last volume
point. -/
theorem specVolHistory_some {ts : List TradeEv} (lastPt : VolumePoint)
    (h : (volPointsOf ts).getLast? = some lastPt) :
    specVolHistory ts
      = (volPointsOf ts).filter (fun q => decide (lastPt.t - lookback ≤ q.t)) := by
  unfold specVolHistory
  rw [h]

/-- On a list with nondecreasing timestamps, popping from the front while
the head is older than the cutoff is the same as keeping exactly the
points at or after the cutoff. -/
theorem dropWhile_lt_eq_filter_le (c : ℤ) :
    ∀ l : List VolumePoint, l.Pairwise (fun a b => a.t ≤ b.t) →
      l.dropWhile (fun q => decide (q.t < c))
        = l.filter (fun q => decide (c ≤ q.t)) := by
  intro l
  induction l with
  | nil => intro _; rfl
  | cons a tl ih =>
    intro hp
    rcases List.pairwise_cons.mp hp with ⟨ha, htl⟩
    by_cases hc : a.t < c
    · rw [List.dropWhile_cons, if_pos (by simpa using hc), List.filter_cons,
        ih htl]
      simp [show ¬ c ≤ a.t from by omega]
    · rw [List.dropWhile_cons, if_neg (by simpa using hc), List.filter_cons]
      rw [if_pos (by simp; omega)]
      rw [List.filter_eq_self.mpr]
      intro b hb
      have := ha b hb
      simp
      omega

/-- Membership in `volPointsOf`: every point comes from a positive-size
trade in the sequence. -/
theorem mem_volPointsOf {ts : List TradeEv} {q : VolumePoint}
    (hq : q ∈ volPointsOf ts) :
    ∃ tr ∈ ts, 0 < tr.size ∧ q = VolumePoint.mk tr.t tr.size := by
  rcases List.mem_map.mp hq with ⟨tr, htr, rfl⟩
  rcases List.mem_filter.mp htr with ⟨hmem, hpos⟩
  exact ⟨tr, hmem, by simpa using hpos, rfl⟩

/-- `volPointsOf` distributes over append. -/
theorem volPointsOf_append (ts us : List TradeEv) :
    volPointsOf (ts ++ us) = volPointsOf ts ++ volPointsOf us := by
  simp [volPointsOf, List.filter_append]

/-- Strictly increasing trade timestamps give nondecreasing volume-point
timestamps. -/
theorem volPointsOf_pairwise {ts : List TradeEv}
    (h : ts.Pairwise (fun a b => a.t < b.t)) :
    (volPointsOf ts).Pairwise (fun a b => a.t ≤ b.t) := by
  have h1 : (ts.filter (fun tr => decide (0 < tr.size))).Pairwise
      (fun a b => a.t < b.t) := h.filter _
  exact List.Pairwise.map _ (fun a b hab => le_of_lt hab) h1

/-- `specVolHistory` also has nondecreasing timestamps. -/
theorem specVolHistory_pairwise {ts : List TradeEv}
    (h : ts.Pairwise (fun a b => a.t < b.t)) :
    (specVolHistory ts).Pairwise (fun a b => a.t ≤ b.t) := by
  cases hl : (volPointsOf ts).getLast? with
  | none => rw [specVolHistory_none hl]; exact List.Pairwise.nil
  | some lastPt =>
      rw [specVolHistory_some _ hl]
      exact (volPointsOf_pairwise h).filter _

/-- Every point of `specVolHistory ts` is a point of `volPointsOf ts`. -/
theorem specVolHistory_subset {ts : List TradeEv} {q : VolumePoint}
    (hq : q ∈ specVolHistory ts) : q ∈ volPointsOf ts := by
  cases hl : (volPointsOf ts).getLast? with
  | none => rw [specVolHistory_none hl] at hq; exact absurd hq (List.not_mem_nil q)
  | some lastPt =>
      rw [specVolHistory_some _ hl] at hq
      exact (List.mem_filter.mp hq).1

/-- Projection of `RecordTrade` on the volume history, positive size. -/
theorem RecordTrade_volumeHistory_pos (s : State) (symbol : String)
    (price : ℚ) (size : ℤ) (t : Option ℤ) (wallNow : ℤ) (h : 0 < size) :
    (RecordTrade s symbol price size t wallNow).volumeHistory
      = Function.update s.volumeHistory symbol
          (((s.volumeHistory symbol) ++ [VolumePoint.mk (t.getD wallNow) size]).dropWhile
            (fun q => decide (q.t < t.getD wallNow - lookback))) := by
  simp only [RecordTrade]
  rw [if_pos h]

/-- Projection of `RecordTrade` on the volume history, non-positive size:
unchanged. -/
theorem RecordTrade_volumeHistory_nonpos (s : State) (symbol : String)
    (price : ℚ) (size : ℤ) (t : Option ℤ) (wallNow : ℤ) (h : ¬ 0 < size) :
    (RecordTrade s symbol price size t wallNow).volumeHistory
      = s.volumeHistory := by
  simp only [RecordTrade]
  rw [if_neg h]

/-- After a chronological sequence of same-symbol trades, the volume
history is exactly the spec's prediction. -/
theorem applyTrades_volumeHistory (sym : String) :
    ∀ ts : List TradeEv, (∀ tr ∈ ts, tr.symbol = sym) →
      ts.Pairwise (fun a b => a.t < b.t) →
      (applyTrades NewState ts).volumeHistory sym = specVolHistory ts := by
  intro ts
  induction ts using List.reverseRecOn with
  | nil => intro _ _; rfl
  | append_singleton ts tr ih =>
    intro hsym hmono
    have hsym' : ∀ u ∈ ts, u.symbol = sym := fun u hu =>
      hsym u (List.mem_append.mpr (Or.inl hu))
    have htr : tr.symbol = sym :=
      hsym tr (List.mem_append.mpr (Or.inr (List.mem_singleton.mpr rfl)))
    have hmono' : ts.Pairwise (fun a b => a.t < b.t) :=
      (List.pairwise_append.mp hmono).1
    have hlt : ∀ u ∈ ts, u.t < tr.t := fun u hu =>
      (List.pairwise_append.mp hmono).2.2 u hu tr (List.mem_singleton.mpr rfl)
    have hstep : applyTrades NewState (ts ++ [tr])
        = RecordTrade (applyTrades NewState ts) tr.symbol tr.price tr.size
            (some tr.t) 0 := by
      rw [applyTrades, List.foldl_append]
      rfl
    have hih := ih hsym' hmono'
    by_cases hpos : 0 < tr.size
    · -- a volume point is appended and the history is re-trimmed
      have hvp : volPointsOf (ts ++ [tr])
          = volPointsOf ts ++ [VolumePoint.mk tr.t tr.size] := by
        rw [volPointsOf_append]
        simp [volPointsOf, List.filter_cons, hpos]
      have hpt : List.filter (fun q => decide (tr.t - lookback ≤ q.t))
          [VolumePoint.mk tr.t tr.size] = [VolumePoint.mk tr.t tr.size] := by
        simp [lookback, minute, second, nanosecond]
      have hspec : specVolHistory (ts ++ [tr])
          = List.filter (fun q => decide (tr.t - lookback ≤ q.t))
              (volPointsOf ts) ++ [VolumePoint.mk tr.t tr.size] := by
        rw [specVolHistory_some (VolumePoint.mk tr.t tr.size)
          (by rw [hvp, List.getLast?_concat]), hvp, List.filter_append, hpt]
      have hff : List.filter (fun q => decide (tr.t - lookback ≤ q.t))
            (specVolHistory ts)
          = List.filter (fun q => decide (tr.t - lookback ≤ q.t))
            (volPointsOf ts) := by
        cases hl : (volPointsOf ts).getLast? with
        | none =>
          have hnil : volPointsOf ts = [] := List.getLast?_eq_none_iff.mp hl
          rw [specVolHistory_none hl, hnil]
        | some lastPt =>
          have hlast_le : lastPt.t ≤ tr.t := by
            have hmem : lastPt ∈ volPointsOf ts := by
              rcases List.mem_getLast?_eq_getLast ((Option.mem_def).mpr hl) with
                ⟨hne, hyl⟩
              exact hyl ▸ List.getLast_mem hne
            rcases mem_volPointsOf hmem with ⟨u, hu, _, rfl⟩
            exact le_of_lt (hlt u hu)
          rw [specVolHistory_some _ hl, List.filter_filter]
          refine List.filter_congr ?_
          intro q hq
          by_cases hc : tr.t - lookback ≤ q.t
          · simp [hc, show lastPt.t - lookback ≤ q.t by omega]
          · simp [hc]
      have hbound : ∀ q ∈ specVolHistory ts, q.t ≤ tr.t := by
        intro q hq
        rcases mem_volPointsOf (specVolHistory_subset hq) with ⟨u, hu, _, rfl⟩
        exact le_of_lt (hlt u hu)
      have hsorted : (specVolHistory ts ++ [VolumePoint.mk tr.t tr.size]).Pairwise
          (fun a b => a.t ≤ b.t) := by
        rw [List.pairwise_append]
        refine ⟨specVolHistory_pairwise hmono', List.pairwise_singleton _ _, ?_⟩
        intro a ha b hb
        rcases List.mem_singleton.mp hb with rfl
        exact hbound a ha
      rw [hstep, RecordTrade_volumeHistory_pos _ _ _ _ _ _ hpos, htr,
        Function.update_same, hih]
      have hgetD : ((some tr.t).getD 0 : ℤ) = tr.t := rfl
      rw [hgetD, dropWhile_lt_eq_filter_le _ _ hsorted, List.filter_append,
        hpt, hff, hspec]
    · -- no volume point appended, history and spec both unchanged
      have hvp : volPointsOf (ts ++ [tr]) = volPointsOf ts := by
        rw [volPointsOf_append]
        simp [volPointsOf, List.filter_cons, hpos]
      rw [hstep, RecordTrade_volumeHistory_nonpos _ _ _ _ _ _ hpos, hih]
      unfold specVolHistory
      rw [hvp]

/-- Folding additions of sizes over a list equals the initial accumulator
plus the sum of the sizes. -/
theorem foldl_add_sizes :
    ∀ (l : List VolumePoint) (init : ℤ),
      l.foldl (fun sum q => sum + q.v) init
        = init + (l.map (fun q => q.v)).sum := by
  intro l
  induction l with
  | nil => intro init; simp
  | cons a tl ih =>
      intro init
      rw [List.foldl_cons, ih, List.map_cons, List.sum_cons]
      ring

/-- C2: after any sequence of `recordTrade` calls for a symbol with
strictly increasing timestamps, `volumeSince(symbol, d)` is the sum of the
sizes of the recorded volume points with timestamp strictly greater than
`now - d`; the recorded points are exactly the positive-size trades within
the 6-minute look-back window of the last positive-size trade (so the sum
never includes older points), and every recorded point has positive
size. -/
theorem volumeSince_matches_spec (sym : String) (ts : List TradeEv)
    (wallNow d : ℤ)
    (hsym : ∀ tr ∈ ts, tr.symbol = sym)
    (hmono : ts.Pairwise (fun a b => a.t < b.t)) :
    (applyTrades NewState ts).volumeHistory sym = specVolHistory ts
    ∧ volumeSince (applyTrades NewState ts) wallNow sym d
        = ((((applyTrades NewState ts).volumeHistory sym).filter
            (fun q => decide (wallNow - d < q.t))).map (fun q => q.v)).sum
    ∧ (∀ q ∈ (applyTrades NewState ts).volumeHistory sym,
        0 < q.v ∧ ∃ tr ∈ ts, 0 < tr.size ∧ q = VolumePoint.mk tr.t tr.size)
    ∧ (∀ q ∈ (applyTrades NewState ts).volumeHistory sym,
        ∀ lastPt, (volPointsOf ts).getLast? = some lastPt →
          lastPt.t - lookback ≤ q.t) := by
  have hmain := applyTrades_volumeHistory sym ts hsym hmono
  refine ⟨hmain, ?_, ?_, ?_⟩
  · simp only [volumeSince]
    rw [foldl_add_sizes, zero_add]
  · intro q hq
    rw [hmain] at hq
    rcases mem_volPointsOf (specVolHistory_subset hq) with ⟨tr, htr, hpos, rfl⟩
    exact ⟨hpos, tr, htr, hpos, rfl⟩
  · intro q hq lastPt hlast
    rw [hmain, specVolHistory_some _ hlast] at hq
    simpa using (List.mem_filter.mp hq).2

/-- Concrete trades for the C2 witness: sizes 10, 20, 30 at t = 0, 1min,
2min. -/
def c2Trades : List TradeEv :=
  [TradeEv.mk "AAPL" 1 10 0, TradeEv.mk "AAPL" 1 20 minute,
   TradeEv.mk "AAPL" 1 30 (2 * minute)]

/-- Witness for C2 at the concrete trade sequence, with `now` at t = 2min
and a 5-minute window. -/
theorem volumeSince_matches_spec_witness :
    ((∀ tr ∈ c2Trades, tr.symbol = "AAPL")
      ∧ c2Trades.Pairwise (fun a b => a.t < b.t))
    ∧ ((applyTrades NewState c2Trades).volumeHistory "AAPL" = specVolHistory c2Trades
      ∧ volumeSince (applyTrades NewState c2Trades) (2 * minute) "AAPL" (5 * minute)
          = ((((applyTrades NewState c2Trades).volumeHistory "AAPL").filter
              (fun q => decide (2 * minute - 5 * minute < q.t))).map
              (fun q => q.v)).sum
      ∧ (∀ q ∈ (applyTrades NewState c2Trades).volumeHistory "AAPL",
          0 < q.v ∧ ∃ tr ∈ c2Trades, 0 < tr.size ∧ q = VolumePoint.mk tr.t tr.size)
      ∧ (∀ q ∈ (applyTrades NewState c2Trades).volumeHistory "AAPL",
          ∀ lastPt, (volPointsOf c2Trades).getLast? = some lastPt →
            lastPt.t - lookback ≤ q.t)) :=
  ⟨⟨by decide, by decide⟩,
    volumeSince_matches_spec "AAPL" c2Trades (2 * minute) (5 * minute)
      (by decide) (by decide)⟩

end Brain

end SentryBridge
namespace SentryBridge

namespace Config

/-- ASCII decimal digit test. -/
def isDigitChar (c : Char) : Bool := decide ('0' ≤ c ∧ c ≤ '9')

/-- Parse a nonempty all-digit character list as a decimal number. -/
def parseDigits (cs : List Char) : Option ℕ :=
  if cs = [] then none
  else if cs.all isDigitChar then
    some (cs.foldl (fun a c => a * 10 + (c.toNat - 48)) 0)
  else none

/-- Model of `strconv.Atoi`: optional sign followed by decimal digits;
`none` on anything else.  (Go's int-overflow error is not modelled; the
embedding's integers are unbounded.) -/
def atoi (s : String) : Option ℤ :=
  match s.toList with
  | '-' :: rest => (parseDigits rest).map (fun n => -(n : ℤ))
  | '+' :: rest => (parseDigits rest).map (fun n => (n : ℤ))
  | cs => (parseDigits cs).map (fun n => (n : ℤ))

/-- `envIntOrDefault` (config.go): an unset variable reads as the empty
string and yields the default; a non-empty value is parsed with `Atoi`,
falling back to the default on a parse error. -/
def envIntOrDefault (v : String) (dflt : ℤ) : ℤ :=
  if v = "" then dflt
  else
    match atoi v with
    | some n => n
    | none => dflt

/-- The `positionsIntervalSec` computation in `Load` (config.go): the
`POSITIONS_INTERVAL_SEC` environment value with default 15, clamped below
to 5 and above to 300. -/
def loadPositionsIntervalSec (env : String) : ℤ :=
  let v := envIntOrDefault env 15
  let v := if v < 5 then 5 else v
  if v > 300 then 300 else v

/-- The positions/orders polling ticker period in `runStreaming`
(main.go): `time.NewTicker(30 * time.Second)` — a hard-coded 30 seconds;
`cfg.PositionsIntervalSec` is never read there. -/
def positionsPollTickerSeconds : ℤ := 30

/-- C8 (code bug): the configuration loader does clamp
`positionsIntervalSec` into 5–300 for every environment input, with
default 15, but the orchestrator's positions/orders polling ticker is
hard-coded at 30 seconds and never reads the configured value — already
at the default configuration the two disagree. -/
theorem positionsInterval_clamped_but_ticker_hardcoded :
    (∀ env : String, 5 ≤ loadPositionsIntervalSec env
      ∧ loadPositionsIntervalSec env ≤ 300)
    ∧ loadPositionsIntervalSec "" = 15
    ∧ positionsPollTickerSeconds = 30
    ∧ positionsPollTickerSeconds ≠ loadPositionsIntervalSec "" := by
  refine ⟨fun env => ?_, rfl, rfl, by decide⟩
  simp only [loadPositionsIntervalSec]
  split_ifs <;> omega

end Config

namespace Stream

/-- One decoded message object from a data frame, with the fields the
handler extracts (a failed type assertion in Go yields the zero value, so
the fields are plain values here).  The field `az` models the quote's
ask-size field (spelled "as" on the wire). -/
structure StreamMsg where
  T : String
  S : String
  p : ℚ
  s : ℤ
  bp : ℚ
  ap : ℚ
  bs : ℤ
  az : ℤ
deriving DecidableEq

/-- `PriceStream.setPrice`: drop updates with an empty symbol or a
non-positive price, otherwise store the price. -/
def setPrice (prices : String → Option ℚ) (symbol : String) (price : ℚ) :
    String → Option ℚ :=
  if symbol = "" ∨ price ≤ 0 then prices
  else Function.update prices symbol (some price)

/-- The per-message dispatch of `PriceStream.handleMessage`: a trade
stores its price; a quote stores the mid-price only when it is positive;
other tags leave the cache alone.  (Callbacks do not touch the cache.) -/
def handleMsg (prices : String → Option ℚ) (m : StreamMsg) :
    String → Option ℚ :=
  if m.T = "t" then setPrice prices m.S m.p
  else if m.T = "q" then
    let mid := (m.bp + m.ap) / 2
    if 0 < mid then setPrice prices m.S mid else prices
  else prices

/-- `PriceStream.handleMessage`: process a decoded frame (an array of
tagged message objects) in order. -/
def handleMessage (prices : String → Option ℚ) (ms : List StreamMsg) :
    String → Option ℚ :=
  ms.foldl handleMsg prices

/-- The invariant: the last-known-price cache holds only strictly
positive prices under non-empty symbols. -/
def PricesInv (prices : String → Option ℚ) : Prop :=
  ∀ sym q, prices sym = some q → sym ≠ "" ∧ 0 < q

/-- `setPrice` preserves the invariant for any incoming symbol/price. -/
theorem setPrice_inv {prices : String → Option ℚ}
    (h : PricesInv prices) (symbol : String) (price : ℚ) :
    PricesInv (setPrice prices symbol price) := by
  intro sym q hq
  rw [setPrice] at hq
  by_cases hg : symbol = "" ∨ price ≤ 0
  · rw [if_pos hg] at hq
    exact h sym q hq
  · rw [if_neg hg] at hq
    push_neg at hg
    by_cases hs : sym = symbol
    · subst hs
      rw [Function.update_same] at hq
      cases hq
      exact ⟨hg.1, by linarith [hg.2]⟩
    · rw [Function.update_noteq hs] at hq
      exact h sym q hq

/-- `handleMsg` preserves the invariant. -/
theorem handleMsg_inv {prices : String → Option ℚ}
    (h : PricesInv prices) (m : StreamMsg) :
    PricesInv (handleMsg prices m) := by
  unfold handleMsg
  dsimp only
  split_ifs with h1 h2 h3 <;> first | exact setPrice_inv h _ _ | exact h

/-- C10: the last-known-price cache contains only strictly positive
prices keyed by non-empty symbols: it starts empty, `setPrice` discards
empty-symbol or non-positive updates, a quote only stores a positive
mid-price, and the invariant is preserved across any sequence of decoded
trade/quote messages. -/
theorem prices_positive_invariant :
    PricesInv (fun _ => none)
    ∧ (∀ (prices : String → Option ℚ) (ms : List StreamMsg),
        PricesInv prices → PricesInv (handleMessage prices ms)) := by
  constructor
  · intro sym q hq
    exact absurd hq (by simp)
  · intro prices ms
    induction ms generalizing prices with
    | nil => intro h; exact h
    | cons m tl ih =>
        intro h
        exact ih (handleMsg prices m) (handleMsg_inv h m)

/-- A concrete frame for the C10 witness: one trade and one quote. -/
def c10Frame : List StreamMsg :=
  [StreamMsg.mk "t" "AAPL" 101 5 0 0 0 0,
   StreamMsg.mk "q" "AAPL" 0 0 100 102 3 4]

/-- Witness for C10: starting from the empty cache and processing a
concrete trade/quote frame keeps the invariant. -/
theorem prices_positive_invariant_witness :
    PricesInv (fun _ => none)
    ∧ PricesInv (handleMessage (fun _ => none) c10Frame) :=
  ⟨fun _ q hq => absurd hq (by simp),
    prices_positive_invariant.2 (fun _ => none) c10Frame
      (fun _ q hq => absurd hq (by simp))⟩

end Stream

end SentryBridge
namespace SentryBridge

namespace Pipe

/-- A UTC civil timestamp with nanoseconds, as produced by
`time.Now().UTC()`. -/
structure DateTime where
  year : ℕ
  month : ℕ
  day : ℕ
  hour : ℕ
  minute : ℕ
  second : ℕ
  nano : ℕ
deriving DecidableEq

/-- Left-pad a decimal rendering with zeros to the given width. -/
def pad (width n : ℕ) : String :=
  let s := toString n
  String.mk (List.replicate (width - s.length) '0') ++ s

/-- Drop trailing zero characters (RFC3339Nano trims the fractional
part). -/
def trimTrailingZeros (s : String) : String :=
  String.mk ((s.toList.reverse.dropWhile (fun c => c = '0')).reverse)

/-- Go's `time.RFC3339Nano` format of a UTC time: second precision plus a
fractional part with trailing zeros removed (absent when `nano = 0`), and
the `Z` zone designator. -/
def rfc3339NanoUTC (t : DateTime) : String :=
  pad 4 t.year ++ "-" ++ pad 2 t.month ++ "-" ++ pad 2 t.day ++ "T"
    ++ pad 2 t.hour ++ ":" ++ pad 2 t.minute ++ ":" ++ pad 2 t.second
    ++ (if t.nano = 0 then "" else "." ++ trimTrailingZeros (pad 9 t.nano))
    ++ "Z"

/-- A JSON value, the serializable payloads `json.Marshal` accepts here
(numbers restricted to integers for a printable model). -/
inductive Json where
  | null : Json
  | bool (b : Bool) : Json
  | num (n : ℤ) : Json
  | str (s : String) : Json
  | arr (xs : List Json) : Json
  | obj (fs : List (String × Json)) : Json

/-- Escape one character inside a JSON string (the representative escapes;
Go additionally escapes HTML metacharacters, which no claim depends
on). -/
def escapeChar (c : Char) : String :=
  if c = '"' then "\\\""
  else if c = '\\' then "\\\\"
  else if c = '\n' then "\\n"
  else if c = '\r' then "\\r"
  else if c = '\t' then "\\t"
  else String.singleton c

/-- Render a JSON string literal. -/
def renderString (s : String) : String :=
  "\"" ++ String.join (s.toList.map escapeChar) ++ "\""

/-- Serialize a JSON value the way `json.Marshal` renders it (object keys
are assumed already in `Marshal`'s sorted order, as the call sites
construct them). -/
def render : Json → String
  | .null => "null"
  | .bool true => "true"
  | .bool false => "false"
  | .num n => toString n
  | .str s => renderString s
  | .arr xs => "[" ++ ",".intercalate (xs.attach.map (fun x => render x.1)) ++ "]"
  | .obj fs => "\x7b" ++ ",".intercalate (fs.attach.map
      (fun f => renderString f.1.1 ++ ":" ++ render f.1.2)) ++ "\x7d"
decreasing_by
  · simp_wf
    have := List.sizeOf_lt_of_mem x.2
    omega
  · simp_wf
    obtain ⟨⟨a, b⟩, hf⟩ := f
    have := List.sizeOf_lt_of_mem hf
    simp at this ⊢
    omega

/-- The buffered writer wired to the child's standard input: `pending`
models bytes sitting in the `bufio.Writer`, `out` the bytes already
flushed into the pipe. -/
structure BufWriter where
  pending : String
  out : String
deriving DecidableEq

/-- The mutable fields of `Pipe` that `Send` reads: the `closed` and
`shutdown` flags and the writer (`stdin == nil` after a failed restart is
`none`).  The process handle and the `done` channel belong to the
supervisor model. -/
structure PipeState where
  closed : Bool
  shutdown : Bool
  stdin : Option BufWriter
deriving DecidableEq

/-- The event object `Send` marshals: `{"type": typ, "ts": now, "payload":
payload}`; `json.Marshal` renders map keys sorted, hence the order
payload, ts, type. -/
def eventObj (typ : String) (now : DateTime) (payload : Json) : Json :=
  Json.obj [("payload", payload), ("ts", Json.str (rfc3339NanoUTC now)),
    ("type", Json.str typ)]

/-- `Pipe.Send` past the nil-receiver guard: a no-op returning no error
when the pipe is closed or the writer is gone; otherwise marshal the
event, write the line and a newline into the buffer, and flush.  (The
`json.Marshal` error branch is unreachable for the always-serializable
`Json` payloads of the model.) -/
def send (st : PipeState) (typ : String) (payload : Json) (now : DateTime) :
    PipeState × Except String Unit :=
  if st.closed = true ∨ st.stdin = none then (st, Except.ok ())
  else
    match st.stdin with
    | none => (st, Except.ok ())
    | some w =>
        let line := render (eventObj typ now payload)
        let w1 : BufWriter := { w with pending := w.pending ++ line }
        let w2 : BufWriter := { w1 with pending := w1.pending ++ "\n" }
        let w3 : BufWriter := { pending := "", out := w2.out ++ w2.pending }
        ({ st with stdin := some w3 }, Except.ok ())

/-- `Pipe.Send` including the `p == nil` guard. -/
def goSend (p : Option PipeState) (typ : String) (payload : Json)
    (now : DateTime) : Option PipeState × Except String Unit :=
  match p with
  | none => (none, Except.ok ())
  | some st =>
      let r := send st typ payload now
      (some r.1, r.2)

/-- The locked section of `Pipe.Close` for a non-nil pipe: an already
requested shutdown returns immediately; otherwise mark shutdown, and if
the pipe is still open flush and close the child's input.  (The final
wait on the `done` channel is modelled in the supervisor transition
system.) -/
def closeRequest (st : PipeState) : PipeState :=
  if st.shutdown = true then st
  else
    match st.stdin with
    | some w =>
        if st.closed = false then
          { st with
            shutdown := true
            closed := true
            stdin := some (BufWriter.mk "" (w.out ++ w.pending)) }
        else { st with shutdown := true }
    | none => { st with shutdown := true }

/-- `Pipe.Close` including the `p == nil` guard (state effect only). -/
def goClose (p : Option PipeState) : Option PipeState × Except String Unit :=
  match p with
  | none => (none, Except.ok ())
  | some st => (some (closeRequest st), Except.ok ())

/-- ASCII whitespace, the model of `unicode.IsSpace` for command lines. -/
def isSpaceChar (c : Char) : Bool :=
  decide (c = ' ' ∨ c = '\t' ∨ c = '\n' ∨ c = '\r')

/-- Accumulator pass of `strings.Fields`: split on runs of whitespace,
dropping empty fields. -/
def fieldsAux : List Char → List Char → List String
  | [], acc => if acc = [] then [] else [String.mk acc.reverse]
  | c :: cs, acc =>
      if isSpaceChar c then
        if acc = [] then fieldsAux cs []
        else String.mk acc.reverse :: fieldsAux cs []
      else fieldsAux cs (c :: acc)

/-- `strings.Fields`. -/
def fields (s : String) : List String := fieldsAux s.toList []

/-- `splitCmd` (pipe.go): splits the command line on whitespace; the Go
loop copies `strings.Fields`' result verbatim. -/
def splitCmd (s : String) : List String := fields s

/-- The fresh pipe state `StartPipe` builds around the spawned process's
standard input. -/
def initialPipeState : PipeState :=
  { closed := false, shutdown := false,
    stdin := some { pending := "", out := "" } }

/-- `StartPipe`: an empty parse returns a nil handle and nil error; a
parse with a program spawns it (`spawn` abstracts `cmd.StdinPipe()` plus
`cmd.Start()`, either of whose errors is returned as-is with a nil
handle) and wires the writer.  The supervisor goroutine it launches is
modelled in the supervisor transition system. -/
def startPipe (spawn : String → List String → Except String Unit)
    (cmdLine : String) : Except String (Option PipeState) :=
  match splitCmd cmdLine with
  | [] => Except.ok none
  | prog :: args =>
      match spawn prog args with
      | Except.error e => Except.error e
      | Except.ok _ => Except.ok (some initialPipeState)

/-- A live `send`: the event line is appended to the flushed output and
the buffer is left empty. -/
theorem send_live (sh : Bool) (w : BufWriter) (typ : String)
    (payload : Json) (now : DateTime) :
    send (PipeState.mk false sh (some w)) typ payload now
      = (PipeState.mk false sh (some (BufWriter.mk ""
          (w.out ++ (w.pending ++ render (eventObj typ now payload)
            ++ "\n")))), Except.ok ()) := rfl

/-- A down `send`: no write, no error. -/
theorem send_down (st : PipeState) (typ : String) (payload : Json)
    (now : DateTime) (hg : st.closed = true ∨ st.stdin = none) :
    send st typ payload now = (st, Except.ok ()) := by
  rw [send, if_pos hg]

/-- C4: while the pipe handle is live, `send` writes exactly one JSON
object `{type, ts, payload}` (with `ts` in RFC3339 nanosecond UTC form)
followed by a newline into the child's standard input and flushes it;
while the handle is down (closed or mid-restart with a nil writer) the
call returns without error and the state is untouched — the event is
dropped, not queued. -/
theorem send_exactly_one_line (st : PipeState) (typ : String)
    (payload : Json) (now : DateTime) :
    (send st typ payload now).2 = Except.ok ()
    ∧ (∀ w, st.closed = false → st.stdin = some w →
        (send st typ payload now).1
          = { st with stdin := some (BufWriter.mk ""
              (w.out ++ (w.pending ++ render (eventObj typ now payload)
                ++ "\n"))) })
    ∧ ((st.closed = true ∨ st.stdin = none) →
        (send st typ payload now).1 = st) := by
  by_cases hg : st.closed = true ∨ st.stdin = none
  · refine ⟨by rw [send_down st typ payload now hg], ?_,
      fun _ => by rw [send_down st typ payload now hg]⟩
    intro w hcl hsome
    rcases hg with hg | hg
    · rw [hcl] at hg
      exact absurd hg (by simp)
    · rw [hsome] at hg
      exact absurd hg (by simp)
  · push_neg at hg
    obtain ⟨cl, sh, stdin⟩ := st
    cases stdin with
    | none => exact absurd rfl hg.2
    | some w =>
        have hcl : cl = false := by
          cases cl
          · rfl
          · exact absurd rfl hg.1
        subst hcl
        refine ⟨?_, ?_, ?_⟩
        · rw [send_live]
        · intro w' _ hsome
          injection hsome with hww
          subst hww
          rw [send_live]
        · intro hcontra
          rcases hcontra with h | h
          · exact absurd h hg.1
          · exact absurd h hg.2

/-- A live pipe state for the C4 witness. -/
def c4Live : PipeState :=
  { closed := false, shutdown := false,
    stdin := some { pending := "", out := "" } }

/-- A timestamp for the C4 witness. -/
def c4Now : DateTime := DateTime.mk 2026 1 2 3 4 5 123

/-- Witness for C4: a live pipe with an empty buffer accepts one trade
event, and the flushed output is exactly the rendered event line; a
closed pipe drops it without error. -/
theorem send_exactly_one_line_witness :
    ((c4Live.closed = false ∧ c4Live.stdin = some (BufWriter.mk "" ""))
      ∧ ({ c4Live with closed := true } : PipeState).closed = true)
    ∧ ((send c4Live "trade" Json.null c4Now).1
        = { c4Live with stdin := some (BufWriter.mk ""
            ("" ++ ("" ++ render (eventObj "trade" c4Now Json.null)
              ++ "\n"))) }
      ∧ (send { c4Live with closed := true } "trade" Json.null c4Now).1
          = { c4Live with closed := true }) :=
  ⟨⟨⟨rfl, rfl⟩, rfl⟩,
    (send_exactly_one_line c4Live "trade" Json.null c4Now).2.1
      (BufWriter.mk "" "") rfl rfl,
    (send_exactly_one_line { c4Live with closed := true } "trade" Json.null
      c4Now).2.2 (Or.inl rfl)⟩

/-- C5 counterexample: for a whitespace-only (or empty) command line,
`StartPipe` does not report failure — it returns a nil handle and a nil
error (`return nil, nil`), i.e. success with no process. -/
theorem startPipe_whitespace_no_error :
    startPipe (fun _ _ => Except.ok ()) " " = Except.ok none
    ∧ startPipe (fun _ _ => Except.ok ()) "" = Except.ok none
    ∧ ∀ e : String,
        startPipe (fun _ _ => Except.ok ()) " " ≠ Except.error e := by
  refine ⟨rfl, rfl, fun e h => Except.noConfusion h⟩

/-- Every whitespace-only character list yields no fields. -/
theorem fieldsAux_all_space :
    ∀ cs : List Char, (∀ c ∈ cs, isSpaceChar c = true) →
      fieldsAux cs [] = [] := by
  intro cs
  induction cs with
  | nil => intro _; rfl
  | cons c tl ih =>
      intro h
      rw [fieldsAux]
      rw [if_pos (h c (List.mem_cons_self c tl))]
      rw [if_pos rfl]
      exact ih (fun c' hc' => h c' (List.mem_cons_of_mem c hc'))

/-- C5 amended: `StartPipe` returns a usable handle wired to the spawned
process's standard input when the command line has fields and the spawn
succeeds, propagates the spawn error when it fails, and returns a nil
handle with no error (not a failure) for an empty or whitespace-only
command line. -/
theorem startPipe_behavior
    (spawn : String → List String → Except String Unit) (cmdLine : String) :
    (splitCmd cmdLine = [] → startPipe spawn cmdLine = Except.ok none)
    ∧ (∀ prog args, splitCmd cmdLine = prog :: args →
        (∀ e, spawn prog args = Except.error e →
          startPipe spawn cmdLine = Except.error e)
        ∧ (spawn prog args = Except.ok () →
          startPipe spawn cmdLine = Except.ok (some initialPipeState)))
    ∧ (∀ s : String, (∀ c ∈ s.toList, isSpaceChar c = true) →
        splitCmd s = []) := by
  refine ⟨?_, ?_, fun s hs => fieldsAux_all_space s.toList hs⟩
  · intro h
    rw [startPipe, h]
  · intro prog args h
    have hred : startPipe spawn cmdLine
        = match spawn prog args with
          | Except.error e => Except.error e
          | Except.ok _ => Except.ok (some initialPipeState) := by
      rw [startPipe, h]
    constructor
    · intro e he
      rw [hred, he]
    · intro hok
      rw [hred, hok]

/-- Witness for C5 (amended): a two-word command line with a successful
spawn yields a handle in the fresh state. -/
theorem startPipe_behavior_witness :
    splitCmd "python3 consumer.py" = ["python3", "consumer.py"]
    ∧ startPipe (fun _ _ => Except.ok ()) "python3 consumer.py"
        = Except.ok (some initialPipeState) :=
  ⟨by decide,
    ((startPipe_behavior (fun _ _ => Except.ok ()) "python3 consumer.py").2.1
      "python3" ["consumer.py"] (by decide)).2 rfl⟩

/-- C9: `Send` and `Close` on a nil pipe handle — as `StartPipe` returns
for an empty command line — return a nil error without touching anything
(both methods guard the nil receiver), so the caller's hot path never
crashes when no decision process was started. -/
theorem nil_pipe_send_close_safe :
    (∀ (typ : String) (payload : Json) (now : DateTime),
      goSend none typ payload now = (none, Except.ok ()))
    ∧ goClose none = (none, Except.ok ())
    ∧ (∀ spawn : String → List String → Except String Unit,
        startPipe spawn "" = Except.ok none) :=
  ⟨fun _ _ _ => rfl, rfl, fun _ => rfl⟩

end Pipe

end SentryBridge
namespace SentryBridge

namespace Supervisor

/-- Control location of the supervisor goroutine (pipe.go):
`waiting` is at `cmd.Wait()` (or about to skip it when `cmd` is nil after
a failed restart), `checkExit` the locked shutdown check after the wait,
`sleeping` the restart-backoff sleep, `checkAfterSleep` the locked
shutdown check after the sleep, `spawning` the restart attempt, and
`terminated` the goroutine having returned (its deferred
`doneOnce.Do(close(done))` has run). -/
inductive SupPC where
  | waiting
  | checkExit
  | sleeping
  | checkAfterSleep
  | spawning
  | terminated
deriving DecidableEq

/-- Control location of the goroutine calling `Close`: before the call,
blocked on `<-p.done` after the locked section, or returned. -/
inductive CloserPC where
  | notCalled
  | waitingDone
  | returned
deriving DecidableEq

/-- Shared state of the supervisor and one `Close` caller.  `doneClosed`
is whether `close(p.done)` has run; `spawnCount` counts successful
re-spawns; `cmdEmpty` is the constant `len(splitCmd(p.cmdLine)) == 0`
(false for a pipe started by `StartPipe`, which refuses empty command
lines). -/
structure Cfg where
  sup : SupPC
  closer : CloserPC
  shutdown : Bool
  closed : Bool
  doneClosed : Bool
  spawnCount : ℕ
  cmdEmpty : Bool
deriving DecidableEq

/-- Interleaved small-step semantics of the supervisor loop and `Close`.
Each supervisor transition is one passage through a locked section or one
blocking call; `Close`'s locked section is one step and its `<-p.done` a
separate step enabled once the done channel is closed. -/
inductive Step : Cfg → Cfg → Prop where
  | wake (s : Cfg) (h : s.sup = SupPC.waiting) :
      Step s { s with sup := SupPC.checkExit }
  | exitShutdown (s : Cfg) (h : s.sup = SupPC.checkExit)
      (hs : s.shutdown = true) :
      Step s { s with
        sup := SupPC.terminated
        closed := true
        doneClosed := true }
  | exitRestart (s : Cfg) (h : s.sup = SupPC.checkExit)
      (hs : s.shutdown = false) :
      Step s { s with sup := SupPC.sleeping, closed := true }
  | sleepDone (s : Cfg) (h : s.sup = SupPC.sleeping) :
      Step s { s with sup := SupPC.checkAfterSleep }
  | afterSleepShutdown (s : Cfg) (h : s.sup = SupPC.checkAfterSleep)
      (hs : s.shutdown = true) :
      Step s { s with sup := SupPC.terminated, doneClosed := true }
  | afterSleepGo (s : Cfg) (h : s.sup = SupPC.checkAfterSleep)
      (hs : s.shutdown = false) :
      Step s { s with sup := SupPC.spawning }
  | spawnEmpty (s : Cfg) (h : s.sup = SupPC.spawning)
      (he : s.cmdEmpty = true) :
      Step s { s with sup := SupPC.terminated, doneClosed := true }
  | spawnFail (s : Cfg) (h : s.sup = SupPC.spawning)
      (he : s.cmdEmpty = false) :
      Step s { s with sup := SupPC.waiting }
  | spawnOk (s : Cfg) (h : s.sup = SupPC.spawning)
      (he : s.cmdEmpty = false) :
      Step s { s with
        sup := SupPC.waiting
        closed := false
        spawnCount := s.spawnCount + 1 }
  | closeEarly (s : Cfg) (h : s.closer = CloserPC.notCalled)
      (hs : s.shutdown = true) :
      Step s { s with closer := CloserPC.returned }
  | closeMain (s : Cfg) (h : s.closer = CloserPC.notCalled)
      (hs : s.shutdown = false) :
      Step s { s with
        closer := CloserPC.waitingDone
        shutdown := true
        closed := true }
  | closeWait (s : Cfg) (h : s.closer = CloserPC.waitingDone)
      (hd : s.doneClosed = true) :
      Step s { s with closer := CloserPC.returned }

/-- The state right after `StartPipe` launched the supervisor. -/
def startCfg : Cfg :=
  { sup := SupPC.waiting
    closer := CloserPC.notCalled
    shutdown := false
    closed := false
    doneClosed := false
    spawnCount := 0
    cmdEmpty := false }

/-- Reachability from the started pipe. -/
inductive Reach : Cfg → Prop where
  | refl : Reach startCfg
  | step {s s' : Cfg} : Reach s → Step s s' → Reach s'

/-- The inductive invariant: the done channel closes only when the
supervisor has terminated, `shutdown` is only ever set by `Close`, and a
returned `Close` has observed the closed done channel. -/
def Inv (s : Cfg) : Prop :=
  (s.doneClosed = true → s.sup = SupPC.terminated)
  ∧ (s.closer = CloserPC.notCalled → s.shutdown = false)
  ∧ (s.closer = CloserPC.returned → s.doneClosed = true)

/-- The invariant holds in every reachable state. -/
theorem inv_holds : ∀ s, Reach s → Inv s := by
  intro s hs
  induction hs with
  | refl =>
      exact ⟨fun h => Bool.noConfusion h, fun _ => rfl,
        fun h => CloserPC.noConfusion h⟩
  | step hr hst ih =>
      cases hst with
      | wake h =>
          refine ⟨fun hd => ?_, ih.2.1, ih.2.2⟩
          have hterm := ih.1 hd
          rw [h] at hterm
          exact SupPC.noConfusion hterm
      | exitShutdown h hs =>
          exact ⟨fun _ => rfl, ih.2.1, fun _ => rfl⟩
      | exitRestart h hs =>
          refine ⟨fun hd => ?_, ih.2.1, ih.2.2⟩
          have hterm := ih.1 hd
          rw [h] at hterm
          exact SupPC.noConfusion hterm
      | sleepDone h =>
          refine ⟨fun hd => ?_, ih.2.1, ih.2.2⟩
          have hterm := ih.1 hd
          rw [h] at hterm
          exact SupPC.noConfusion hterm
      | afterSleepShutdown h hs =>
          exact ⟨fun _ => rfl, ih.2.1, fun _ => rfl⟩
      | afterSleepGo h hs =>
          refine ⟨fun hd => ?_, ih.2.1, ih.2.2⟩
          have hterm := ih.1 hd
          rw [h] at hterm
          exact SupPC.noConfusion hterm
      | spawnEmpty h he =>
          exact ⟨fun _ => rfl, ih.2.1, fun _ => rfl⟩
      | spawnFail h he =>
          refine ⟨fun hd => ?_, ih.2.1, ih.2.2⟩
          have hterm := ih.1 hd
          rw [h] at hterm
          exact SupPC.noConfusion hterm
      | spawnOk h he =>
          refine ⟨fun hd => ?_, ih.2.1, ih.2.2⟩
          have hterm := ih.1 hd
          rw [h] at hterm
          exact SupPC.noConfusion hterm
      | closeEarly h hs =>
          have := ih.2.1 h
          rw [hs] at this
          exact Bool.noConfusion this
      | closeMain h hs =>
          exact ⟨ih.1, fun hc => CloserPC.noConfusion hc,
            fun hc => CloserPC.noConfusion hc⟩
      | closeWait h hd =>
          exact ⟨ih.1, fun hc => CloserPC.noConfusion hc, fun _ => hd⟩

/-- C6: `Close` marks shutdown-requested and closes the child's input
(the `closeMain` transition), and returns only after the supervision loop
has terminated: in every reachable state where `Close` has returned the
supervisor has terminated with the done channel closed; once terminated,
no step spawns another process; `shutdown` is never unset; and from a
state where the loop is in its restart-backoff sleep after `Close`
requested shutdown, the loop wakes, observes the request, terminates and
closes the done channel, unblocking `Close` — no deadlock. -/
theorem close_waits_for_supervisor :
    (∀ s, Reach s → s.closer = CloserPC.returned →
      s.sup = SupPC.terminated ∧ s.doneClosed = true)
    ∧ (∀ s s', s.sup = SupPC.terminated → Step s s' →
        s'.spawnCount = s.spawnCount ∧ s'.sup = SupPC.terminated)
    ∧ (∀ s s', Step s s' → s.shutdown = true → s'.shutdown = true)
    ∧ (∀ s, s.sup = SupPC.sleeping → s.shutdown = true →
        s.closer = CloserPC.waitingDone →
        ∃ s₁ s₂ s₃, Step s s₁ ∧ Step s₁ s₂ ∧ Step s₂ s₃
          ∧ s₂.sup = SupPC.terminated ∧ s₂.doneClosed = true
          ∧ s₃.closer = CloserPC.returned) := by
  refine ⟨?_, ?_, ?_, ?_⟩
  · intro s hr hret
    have hinv := inv_holds s hr
    exact ⟨hinv.1 (hinv.2.2 hret), hinv.2.2 hret⟩
  · intro s s' hterm hst
    cases hst with
    | wake h => rw [hterm] at h; exact SupPC.noConfusion h
    | exitShutdown h hs => rw [hterm] at h; exact SupPC.noConfusion h
    | exitRestart h hs => rw [hterm] at h; exact SupPC.noConfusion h
    | sleepDone h => rw [hterm] at h; exact SupPC.noConfusion h
    | afterSleepShutdown h hs => rw [hterm] at h; exact SupPC.noConfusion h
    | afterSleepGo h hs => rw [hterm] at h; exact SupPC.noConfusion h
    | spawnEmpty h he => rw [hterm] at h; exact SupPC.noConfusion h
    | spawnFail h he => rw [hterm] at h; exact SupPC.noConfusion h
    | spawnOk h he => rw [hterm] at h; exact SupPC.noConfusion h
    | closeEarly h hs => exact ⟨rfl, hterm⟩
    | closeMain h hs => exact ⟨rfl, hterm⟩
    | closeWait h hd => exact ⟨rfl, hterm⟩
  · intro s s' hst hsh
    cases hst with
    | closeMain h hs => rfl
    | wake h => exact hsh
    | exitShutdown h hs => exact hsh
    | exitRestart h hs => exact hsh
    | sleepDone h => exact hsh
    | afterSleepShutdown h hs => exact hsh
    | afterSleepGo h hs => exact hsh
    | spawnEmpty h he => exact hsh
    | spawnFail h he => exact hsh
    | spawnOk h he => exact hsh
    | closeEarly h hs => exact hsh
    | closeWait h hd => exact hsh
  · intro s h1 h2 h3
    exact ⟨_, _, _, Step.sleepDone s h1,
      Step.afterSleepShutdown _ rfl h2,
      Step.closeWait _ h3 rfl, rfl, rfl, rfl⟩

/-- A backoff-sleep configuration with shutdown requested, for the C6
witness. -/
def c6Sleeping : Cfg :=
  { sup := SupPC.sleeping
    closer := CloserPC.waitingDone
    shutdown := true
    closed := true
    doneClosed := false
    spawnCount := 1
    cmdEmpty := false }

/-- Witness for C6: from a concrete mid-backoff configuration with
shutdown requested, a three-step run terminates the supervisor, closes
the done channel and returns from `Close`; and the initial state is
reachable with `Close` not yet returned. -/
theorem close_waits_for_supervisor_witness :
    (Reach startCfg
      ∧ c6Sleeping.sup = SupPC.sleeping ∧ c6Sleeping.shutdown = true
      ∧ c6Sleeping.closer = CloserPC.waitingDone)
    ∧ ((startCfg.closer = CloserPC.returned →
        startCfg.sup = SupPC.terminated ∧ startCfg.doneClosed = true)
      ∧ ∃ s₁ s₂ s₃, Step c6Sleeping s₁ ∧ Step s₁ s₂ ∧ Step s₂ s₃
          ∧ s₂.sup = SupPC.terminated ∧ s₂.doneClosed = true
          ∧ s₃.closer = CloserPC.returned) :=
  ⟨⟨Reach.refl, rfl, rfl, rfl⟩,
    close_waits_for_supervisor.1 startCfg Reach.refl,
    close_waits_for_supervisor.2.2.2 c6Sleeping rfl rfl rfl⟩

end Supervisor

end SentryBridge
namespace SentryBridge

namespace Alpaca

/-- An OHLCV daily bar (`alpaca.Bar`); the volatility computation reads
only the close `c`. -/
structure Bar where
  o : ℝ
  hi : ℝ
  lo : ℝ
  c : ℝ
  v : ℕ

/-- The log returns accumulated by `AnnualizedVolatility`'s loop: one per
consecutive pair of bars, skipping pairs whose earlier close is
non-positive (`bars[i-1].Close <= 0 { continue }`). -/
noncomputable def logReturns (bars : List Bar) : List ℝ :=
  (bars.zip bars.tail).filterMap
    (fun ab => if ab.1.c ≤ 0 then none
      else some (Real.log (ab.2.c / ab.1.c)))

/-- The `n` of `AnnualizedVolatility`: `float64(len(bars) - 1)`. -/
def nOf (bars : List Bar) : ℝ := ((bars.length - 1 : ℕ) : ℝ)

/-- The `variance` local of `AnnualizedVolatility`:
`(sumSq - sum*sum/n) / (n - 1)` over the accumulated log returns. -/
noncomputable def sampleVariance (bars : List Bar) : ℝ :=
  (((logReturns bars).map (fun r => r * r)).sum
    - (logReturns bars).sum * (logReturns bars).sum / nOf bars)
    / (nOf bars - 1)

/-- `AnnualizedVolatility` (volatility.go).  `none` stands for the IEEE
NaN the function returns for fewer than 2 bars and for `n < 2`; for
non-positive variance it returns 0, otherwise the daily standard
deviation annualized by √252.  (IEEE NaN arising from `math.Log` of a
negative ratio is outside the real-number model; the theorems below
assume positive closes.) -/
noncomputable def AnnualizedVolatility (bars : List Bar) : Option ℝ :=
  if bars.length < 2 then none
  else if nOf bars < 2 then none
  else if sampleVariance bars ≤ 0 then some 0
  else some (Real.sqrt (sampleVariance bars * 252))

/-- The daily log returns as the claim words them (no skipping: the
claim's bars are daily closes, implicitly positive). -/
noncomputable def claimReturns (bars : List Bar) : List ℝ :=
  (bars.zip bars.tail).map (fun ab => Real.log (ab.2.c / ab.1.c))

/-- The sample variance of the daily log returns, as the claim's
"standard deviation of the daily log returns" implies (mean-deviation
form). -/
noncomputable def claimVariance (bars : List Bar) : ℝ :=
  ((claimReturns bars).map
    (fun r => (r - (claimReturns bars).sum / ((claimReturns bars).length : ℝ))
      * (r - (claimReturns bars).sum / ((claimReturns bars).length : ℝ)))).sum
    / (((claimReturns bars).length : ℝ) - 1)

/-- Modelled from the claim's words: for at least 2 bars the annualized
volatility is the standard deviation of the daily log returns scaled by
√252, and exactly 0 (not NaN) when the variance is ≤ 0; fewer than 2
bars are skipped. -/
noncomputable def claimVolatility (bars : List Bar) : Option ℝ :=
  if bars.length < 2 then none
  else if claimVariance bars ≤ 0 then some 0
  else some (Real.sqrt (claimVariance bars * 252))

/-- One ticker's update inside `updateVolatility`'s loop (main.go): a
missing bars entry or fewer than 2 bars leaves the map alone, otherwise
the symbol's entry is overwritten with `AnnualizedVolatility`. -/
noncomputable def updateVolStep (barsBySym : String → Option (List Bar))
    (v : String → Option (Option ℝ)) (sym : String) :
    String → Option (Option ℝ) :=
  match barsBySym sym with
  | none => v
  | some bars =>
      if bars.length < 2 then v
      else Function.update v sym (some (AnnualizedVolatility bars))

/-- `updateVolatility` in `runStreaming` (main.go): fold the per-ticker
update over the configured tickers.  Map entries are `Option (Option ℝ)`:
the outer option is map presence, the inner `none` a stored NaN. -/
noncomputable def updateVolatility (barsBySym : String → Option (List Bar))
    (tickers : List String) (vol : String → Option (Option ℝ)) :
    String → Option (Option ℝ) :=
  tickers.foldl (updateVolStep barsBySym) vol

/-- Step rewriting: no bars entry. -/
theorem updateVolStep_none {barsBySym : String → Option (List Bar)}
    {sym : String} (v : String → Option (Option ℝ))
    (hb : barsBySym sym = none) : updateVolStep barsBySym v sym = v := by
  simp only [updateVolStep, hb]

/-- Step rewriting: fewer than 2 bars. -/
theorem updateVolStep_short {barsBySym : String → Option (List Bar)}
    {sym : String} {bars : List Bar} (v : String → Option (Option ℝ))
    (hb : barsBySym sym = some bars) (hl : bars.length < 2) :
    updateVolStep barsBySym v sym = v := by
  simp only [updateVolStep, hb]
  rw [if_pos hl]

/-- Step rewriting: at least 2 bars. -/
theorem updateVolStep_long {barsBySym : String → Option (List Bar)}
    {sym : String} {bars : List Bar} (v : String → Option (Option ℝ))
    (hb : barsBySym sym = some bars) (hl : ¬ bars.length < 2) :
    updateVolStep barsBySym v sym
      = Function.update v sym (some (AnnualizedVolatility bars)) := by
  simp only [updateVolStep, hb]
  rw [if_neg hl]

/-- A 100-close bar for the C3 counterexample. -/
def bar100 : Bar := Bar.mk 100 100 100 100 0

/-- C3 counterexample: for the two daily closes `[100, 100]` — at least
2 bars, zero variance — the claim demands a computed volatility of
exactly 0 (not NaN), but `AnnualizedVolatility` hits its `n < 2` guard
and returns NaN, which `updateVolatility` (whose skip guard is only
`len(bars) < 2`) then stores. -/
theorem annualizedVolatility_two_bars_nan :
    AnnualizedVolatility [bar100, bar100] = none
    ∧ claimVolatility [bar100, bar100] = some 0
    ∧ (none : Option ℝ) ≠ some 0 := by
  refine ⟨?_, ?_, by simp⟩
  · rw [AnnualizedVolatility]
    rw [if_neg (by norm_num)]
    rw [if_pos ?_]
    rw [nOf]
    norm_num
  · rw [claimVolatility]
    rw [if_neg (by norm_num)]
    rw [if_pos ?_]
    have hr : claimReturns [bar100, bar100] = [Real.log (100 / 100)] := by
      rw [claimReturns]
      rfl
    rw [claimVariance, hr]
    norm_num

/-- A symbol whose bars entry is missing or shorter than 2 bars is left
untouched by the volatility refresh. -/
theorem updateVolatility_skips_short (barsBySym : String → Option (List Bar))
    (sym : String)
    (hshort : ∀ bars, barsBySym sym = some bars → bars.length < 2) :
    ∀ (tickers : List String) (vol : String → Option (Option ℝ)),
      updateVolatility barsBySym tickers vol sym = vol sym := by
  intro tickers
  induction tickers with
  | nil => intro vol; rfl
  | cons sym' tl ih =>
      intro vol
      rw [updateVolatility, List.foldl_cons]
      have htl := ih (updateVolStep barsBySym vol sym')
      rw [updateVolatility] at htl
      rw [htl]
      cases hb : barsBySym sym' with
      | none => rw [updateVolStep_none _ hb]
      | some bars =>
          by_cases hl : bars.length < 2
          · rw [updateVolStep_short _ hb hl]
          · rw [updateVolStep_long _ hb hl]
            by_cases hss : sym' = sym
            · subst hss
              exact absurd (hshort bars hb) hl
            · rw [Function.update_noteq (fun hx => hss hx.symm)]

/-- Expanding the squared deviations: `Σ (r - m)² = Σ r² - 2mΣr + |rs|m²`. -/
theorem sum_sq_dev (rs : List ℝ) (m : ℝ) :
    (rs.map (fun r => (r - m) * (r - m))).sum
      = (rs.map (fun r => r * r)).sum - 2 * m * rs.sum
        + (rs.length : ℝ) * m * m := by
  induction rs with
  | nil => simp
  | cons a tl ih =>
      rw [List.map_cons, List.sum_cons, List.map_cons, List.sum_cons,
        List.sum_cons, List.length_cons, ih]
      push_cast
      ring

/-- The textbook identity between the mean-deviation and the
moment forms of the variance numerator. -/
theorem variance_numerator (rs : List ℝ) (hn : (rs.length : ℝ) ≠ 0) :
    (rs.map (fun r => (r - rs.sum / (rs.length : ℝ))
        * (r - rs.sum / (rs.length : ℝ)))).sum
      = (rs.map (fun r => r * r)).sum
        - rs.sum * rs.sum / (rs.length : ℝ) := by
  rw [sum_sq_dev]
  field_simp
  ring

end Alpaca

end SentryBridge
namespace SentryBridge

namespace Alpaca

/-- With all-positive closes the skip branch never fires, so the loop's
log returns are the claim's daily log returns. -/
theorem logReturns_of_pos {bars : List Bar} (h : ∀ b ∈ bars, 0 < b.c) :
    logReturns bars = claimReturns bars := by
  rw [logReturns, claimReturns]
  have key : ∀ l : List (Bar × Bar), (∀ ab ∈ l, 0 < ab.1.c) →
      l.filterMap (fun ab => if ab.1.c ≤ 0 then none
        else some (Real.log (ab.2.c / ab.1.c)))
        = l.map (fun ab => Real.log (ab.2.c / ab.1.c)) := by
    intro l
    induction l with
    | nil => intro _; rfl
    | cons a tl ih =>
        intro hl
        have ha : ¬ a.1.c ≤ 0 := not_le.mpr (hl a (List.mem_cons_self a tl))
        simp only [List.filterMap_cons, if_neg ha, List.map_cons]
        rw [ih (fun ab hab => hl ab (List.mem_cons_of_mem a hab))]
  apply key
  intro ab hab
  obtain ⟨a, b⟩ := ab
  exact h a (List.of_mem_zip hab).1

/-- There is one daily log return per consecutive pair of bars. -/
theorem claimReturns_length (bars : List Bar) :
    (claimReturns bars).length = bars.length - 1 := by
  rw [claimReturns, List.length_map, List.length_zip, List.length_tail]
  exact min_eq_right (Nat.sub_le _ _)

/-- For at least 3 bars with positive closes, the code's volatility is
exactly the claim's: the sample standard deviation of the daily log
returns annualized by √252, clamped to 0 for non-positive variance. -/
theorem annualizedVolatility_eq_claim {bars : List Bar}
    (hlen : 3 ≤ bars.length) (hpos : ∀ b ∈ bars, 0 < b.c) :
    AnnualizedVolatility bars = claimVolatility bars := by
  have hn1 : ¬ bars.length < 2 := by omega
  have hlrc : logReturns bars = claimReturns bars := logReturns_of_pos hpos
  have hlen' : (claimReturns bars).length = bars.length - 1 :=
    claimReturns_length bars
  have hcast : ((claimReturns bars).length : ℝ) = nOf bars := by
    rw [hlen', nOf]
  have hne : ((claimReturns bars).length : ℝ) ≠ 0 := by
    rw [hlen']
    exact Nat.cast_ne_zero.mpr (by omega)
  have hvar : sampleVariance bars = claimVariance bars := by
    rw [sampleVariance, claimVariance, hlrc, variance_numerator _ hne, hcast]
  have hn2 : ¬ nOf bars < 2 := by
    rw [nOf]
    have h2 : 2 ≤ bars.length - 1 := by omega
    exact not_lt.mpr (by exact_mod_cast h2)
  rw [AnnualizedVolatility, claimVolatility, if_neg hn1, if_neg hn1,
    if_neg hn2, hvar]

/-- The spec's example bars: daily closes 100, 101, 99. -/
def demoBars : List Bar :=
  [Bar.mk 100 100 100 100 0, Bar.mk 101 101 101 101 0,
   Bar.mk 99 99 99 99 0]

/-- The log returns of the example bars. -/
theorem demo_logReturns :
    logReturns demoBars = [Real.log (101 / 100), Real.log (99 / 101)] := by
  rw [logReturns]
  show ([(Bar.mk 100 100 100 100 0, Bar.mk 101 101 101 101 0),
    (Bar.mk 101 101 101 101 0, Bar.mk 99 99 99 99 0)].filterMap
      (fun ab => if ab.1.c ≤ 0 then none
        else some (Real.log (ab.2.c / ab.1.c)))) = _
  simp only [List.filterMap_cons, List.filterMap_nil]
  norm_num

/-- The example bars have strictly positive sample variance: the two log
returns differ (one positive, one negative). -/
theorem demo_variance_pos : 0 < sampleVariance demoBars := by
  have ha : 0 < Real.log (101 / 100) := Real.log_pos (by norm_num)
  have hb : Real.log (99 / 101) < 0 := Real.log_neg (by norm_num) (by norm_num)
  rw [sampleVariance, demo_logReturns, nOf]
  have hlen : ((demoBars.length - 1 : ℕ) : ℝ) = 2 := by
    norm_num [demoBars]
  rw [hlen]
  simp only [List.map_cons, List.map_nil, List.sum_cons, List.sum_nil]
  have key : ((Real.log (101 / 100) * Real.log (101 / 100)
        + (Real.log (99 / 101) * Real.log (99 / 101) + 0))
      - (Real.log (101 / 100) + (Real.log (99 / 101) + 0))
        * (Real.log (101 / 100) + (Real.log (99 / 101) + 0)) / 2) / (2 - 1)
      = (Real.log (101 / 100) - Real.log (99 / 101)) ^ 2 / 2 := by
    ring
  rw [key]
  have hne : Real.log (101 / 100) - Real.log (99 / 101) ≠ 0 :=
    sub_ne_zero.mpr (ne_of_gt (lt_trans hb ha))
  exact div_pos (pow_two_pos_of_ne_zero hne) (by norm_num)

/-- On the example bars the code's volatility is a strictly positive
real (finite by construction in the real model). -/
theorem demo_vol_pos :
    ∃ r, AnnualizedVolatility demoBars = some r ∧ 0 < r := by
  have hl1 : ¬ (demoBars.length < 2) := by norm_num [demoBars]
  have hn2 : ¬ nOf demoBars < 2 := by
    rw [nOf]
    norm_num [demoBars]
  have hv := demo_variance_pos
  refine ⟨Real.sqrt (sampleVariance demoBars * 252), ?_, ?_⟩
  · rw [AnnualizedVolatility, if_neg hl1, if_neg hn2,
      if_neg (not_le.mpr hv)]
  · exact Real.sqrt_pos.mpr (by positivity)

/-- C3 (amended): for every symbol whose bars fetch yields at least 3
daily bars with positive closes, the volatility refresh computes the
annualized volatility as the (sample) standard deviation of the daily
log returns scaled by √252, reporting exactly 0 when the variance is
non-positive; for the bars [100, 101, 99] the result is positive; and a
symbol with fewer than 2 bars (or no bars entry) is skipped, leaving any
existing volatility value unchanged.  (With exactly 2 bars the code
returns NaN instead — see the counterexample.) -/
theorem annualizedVolatility_amended :
    (∀ bars : List Bar, 3 ≤ bars.length → (∀ b ∈ bars, 0 < b.c) →
      AnnualizedVolatility bars = claimVolatility bars)
    ∧ (∃ r, AnnualizedVolatility demoBars = some r ∧ 0 < r)
    ∧ (∀ (barsBySym : String → Option (List Bar)) (sym : String),
        (∀ bars, barsBySym sym = some bars → bars.length < 2) →
        ∀ (tickers : List String) (vol : String → Option (Option ℝ)),
          updateVolatility barsBySym tickers vol sym = vol sym) :=
  ⟨fun _ h1 h2 => annualizedVolatility_eq_claim h1 h2, demo_vol_pos,
    updateVolatility_skips_short⟩

/-- A bars table with a single one-bar entry, for the C3 witness. -/
def demoShortBars : String → Option (List Bar) := fun _ => some [bar100]

/-- Witness for C3 (amended) at the example bars and a one-bar symbol. -/
theorem annualizedVolatility_amended_witness :
    ((3 ≤ demoBars.length ∧ ∀ b ∈ demoBars, 0 < b.c)
      ∧ (∀ bars, demoShortBars "MSFT" = some bars → bars.length < 2))
    ∧ (AnnualizedVolatility demoBars = claimVolatility demoBars
      ∧ updateVolatility demoShortBars ["MSFT"] (fun _ => none) "MSFT"
          = none) :=
  ⟨⟨⟨by norm_num [demoBars], by intro b hb; fin_cases hb <;> norm_num⟩,
      by intro bars h; cases h; norm_num⟩,
    annualizedVolatility_amended.1 demoBars (by norm_num [demoBars])
      (by intro b hb; fin_cases hb <;> norm_num),
    annualizedVolatility_amended.2.2 demoShortBars "MSFT"
      (by intro bars h; cases h; norm_num) ["MSFT"] (fun _ => none)⟩

end Alpaca

end SentryBridge
